import Mathlib

/-!
Shallow embedding of the ComfyUI image-gallery loader module
(`__init__.py`): the TTL-based `ImageCache`, the PNG metadata scanner
`has_comfyui_metadata_fast`, the query-engine sort step, endpoint
pagination, the thumbnail cache, the source-folder configuration
loader, and the path-safety checks of the routes.

Modelling conventions: clock readings (`time.time()`) are integers,
file contents are lists of byte values (`List Nat`), the filesystem is
passed in explicitly (a scan function, a stat function, an
is-directory predicate), Python dicts observed through `in` / `[]`
are association lists, and `os.path` functions follow their POSIX
definitions.
-/

/-- Directory listing produced by `ImageCache._scan_directory`:
relative image paths, relative folder paths, and the map from relative
path to modification time. -/
structure DirListing where
  images : List String
  folders : List String
  mtimes : List (String × Int)
deriving DecidableEq

/-- One entry of `ImageCache._cache`: the dict stored as
`{'time': time.time(), 'data': (images, folders, mtimes)}`. -/
structure DirEntry where
  time : Int
  data : DirListing
deriving DecidableEq

/-- One entry of `ImageCache._metadata_cache`:
`{'time': time.time(), 'data': has_metadata}`. -/
structure MetaEntry where
  time : Int
  data : Bool
deriving DecidableEq

/-- State of the `ImageCache` object: the directory-listing partition
`_cache` and the metadata partition `_metadata_cache`. -/
structure ImageCache where
  cache : List (String × DirEntry)
  metadataCache : List (String × MetaEntry)
deriving DecidableEq

/-- Python dict assignment `d[k] = v`, observed through `k in d` and
`d[k]`: the new binding replaces any previous binding of `k`. -/
def assocSet {β : Type} (k : String) (v : β)
    (l : List (String × β)) : List (String × β) :=
  (k, v) :: l.filter (fun p => !(p.1 == k))

/-- `ImageCache._is_expired(entry, ttl)`:
`time.time() - entry['time'] > ttl`. -/
def isExpired (now t ttl : Int) : Bool := now - t > ttl

/-- Directory-listing TTL: `self._ttl = 30` (seconds). -/
def DIR_TTL : Int := 30

/-- Metadata TTL: `self._metadata_ttl = 300` (seconds). -/
def META_TTL : Int := 300

/-- Cache key `f"dir:{input_dir}"`. -/
def dirKey (input_dir : String) : String := "dir:" ++ input_dir

/-- Cache key `f"meta:{image_path}:{mtime}"`. -/
def metaKey (image_path : String) (mtime : Int) : String :=
  "meta:" ++ image_path ++ ":" ++ toString mtime

/-- `ImageCache.get_directory_listing(input_dir)`.  The Directory
Indexer `_scan_directory` is passed in as the function `scan` (it
reads the filesystem); `now` is the clock reading for this call.
Returns the listing together with the updated cache state. -/
def get_directory_listing (c : ImageCache) (now : Int)
    (scan : String → DirListing) (input_dir : String) :
    DirListing × ImageCache :=
  match c.cache.lookup (dirKey input_dir) with
  | some e =>
    if !(isExpired now e.time DIR_TTL) then
      (e.data, c)
    else
      let d := scan input_dir
      (d, { c with cache := assocSet (dirKey input_dir) ⟨now, d⟩ c.cache })
  | none =>
    let d := scan input_dir
    (d, { c with cache := assocSet (dirKey input_dir) ⟨now, d⟩ c.cache })

/-- `ImageCache.get_metadata_status(image_path, mtime)`: cached
boolean if present and fresh, otherwise `None`. -/
def get_metadata_status (c : ImageCache) (now : Int)
    (image_path : String) (mtime : Int) : Option Bool :=
  match c.metadataCache.lookup (metaKey image_path mtime) with
  | some e => if !(isExpired now e.time META_TTL) then some e.data else none
  | none => none

/-- `ImageCache.set_metadata_status(image_path, mtime, has_metadata)`. -/
def set_metadata_status (c : ImageCache) (now : Int)
    (image_path : String) (mtime : Int) (b : Bool) : ImageCache :=
  { c with metadataCache :=
      assocSet (metaKey image_path mtime) ⟨now, b⟩ c.metadataCache }

/-- `ImageCache.invalidate()`: clears `_cache` only; the comment in
the source reads "Keep metadata cache as it's based on mtime". -/
def ImageCache.invalidate (c : ImageCache) : ImageCache :=
  { c with cache := [] }

/-! ## PNG metadata scanner -/

/-- The PNG signature `b'\x89PNG\r\n\x1a\n'`. -/
def pngSig : List Nat := [137, 80, 78, 71, 13, 10, 26, 10]

/-- Chunk type `b'tEXt'`. -/
def tEXtBytes : List Nat := [116, 69, 88, 116]

/-- Chunk type `b'iTXt'`. -/
def iTXtBytes : List Nat := [105, 84, 88, 116]

/-- Chunk type `b'IEND'`. -/
def iendBytes : List Nat := [73, 69, 78, 68]

/-- Marker keyword `b'prompt'`. -/
def promptBytes : List Nat := [112, 114, 111, 109, 112, 116]

/-- Marker keyword `b'workflow'`. -/
def workflowBytes : List Nat := [119, 111, 114, 107, 102, 108, 111, 119]

/-- Python `pat in data` on byte strings: contiguous substring test. -/
def hasSubstr (pat : List Nat) : List Nat → Bool
  | [] => pat.isEmpty
  | a :: rest => pat.isPrefixOf (a :: rest) || hasSubstr pat rest

/-- `int.from_bytes(chunk_header[:4], 'big')`. -/
def parseBe32 (l : List Nat) : Nat :=
  l.foldl (fun acc b => acc * 256 + b) 0

/-- Big-endian 4-byte encoding of a chunk length. -/
def be32 (n : Nat) : List Nat :=
  [n / 16777216 % 256, n / 65536 % 256, n / 256 % 256, n % 256]

/-- The `while True` chunk-walking loop of `has_comfyui_metadata_fast`,
acting on the bytes from the current file position onward (all file
movement in the source is forward, so the position is represented by
the remaining suffix; `f.read(k)` past end-of-file returns the
available bytes, as `List.take` does, and `f.seek` past end-of-file
makes later reads return `b''`, as `List.drop` does).  `fuel` only
bounds the number of iterations: every iteration either stops or drops
at least 12 bytes, and `scanBytes` passes more fuel than any input can
consume. -/
def scanLoop : Nat → List Nat → Bool
  | 0, _ => false
  | fuel + 1, bytes =>
    if (bytes.take 8).length < 8 then
      false
    else
      let len := parseBe32 (bytes.take 4)
      let ty := (bytes.drop 4).take 4
      if ty == tEXtBytes || ty == iTXtBytes then
        let chunkData := (bytes.drop 8).take (min len 1024)
        if hasSubstr promptBytes chunkData || hasSubstr workflowBytes chunkData then
          true
        else
          scanLoop fuel (bytes.drop (8 + len + 4))
      else if ty == iendBytes then
        false
      else
        scanLoop fuel (bytes.drop (8 + len + 4))

/-- Body of the `try` block of `has_comfyui_metadata_fast` on a
successfully opened file: read `header = f.read(33)`, check
`len(header) < 8 or header[:8] != b'\x89PNG\r\n\x1a\n'`, then
`f.seek(8)` and walk the chunk stream. -/
def scanBytes (bytes : List Nat) : Bool :=
  if ((bytes.take 33).length < 8) || !((bytes.take 33).take 8 == pngSig) then
    false
  else
    scanLoop (bytes.length + 1) (bytes.drop 8)

/-- ASCII lower-casing of one byte, as `str.lower` acts on the
characters appearing in file extensions. -/
def lowerNat (n : Nat) : Nat := if 65 ≤ n ∧ n ≤ 90 then n + 32 else n

/-- Code points of `s.lower()`. -/
def lowerStr (s : String) : List Nat :=
  s.data.map (fun ch => lowerNat ch.toNat)

/-- The suffix `'.png'`. -/
def pngSuffix : List Nat := [46, 112, 110, 103]

/-- `image_path.lower().endswith('.png')`. -/
def endsWithPngLower (s : String) : Bool :=
  pngSuffix.isSuffixOf (lowerStr s)

/-- `has_comfyui_metadata_fast(image_path, mtime)` with the cache
state, the clock and the file content explicit.  `file = none` models
the open or any read raising an exception, which the `except Exception`
branch turns into a cached `False`; `file = some bytes` models the
reads succeeding against content `bytes`.  The `mtime is None` branch
(stat inside the function) is not exercised by the claims, which fix
`mtime`. -/
def has_comfyui_metadata_fast (c : ImageCache) (now : Int)
    (file : Option (List Nat)) (image_path : String) (mtime : Int) :
    Bool × ImageCache :=
  if !(endsWithPngLower image_path) then
    (false, c)
  else
    match get_metadata_status c now image_path mtime with
    | some b => (b, c)
    | none =>
      match file with
      | none => (false, set_metadata_status c now image_path mtime false)
      | some bytes =>
        let r := scanBytes bytes
        (r, set_metadata_status c now image_path mtime r)

/-- A PNG chunk for stating well-formed-stream properties: type tag,
payload, and CRC; `serChunk` lays it out as the scanner expects. -/
structure PngChunk where
  type : List Nat
  payload : List Nat
  crc : List Nat
deriving DecidableEq

/-- Well-formed chunk: 4-byte type, 4-byte CRC, payload length
representable in the 4-byte big-endian length field. -/
def wfChunk (c : PngChunk) : Prop :=
  c.type.length = 4 ∧ c.crc.length = 4 ∧ c.payload.length < 4294967296

instance (c : PngChunk) : Decidable (wfChunk c) :=
  inferInstanceAs (Decidable (c.type.length = 4 ∧ c.crc.length = 4 ∧
    c.payload.length < 4294967296))

/-- Serialization of one chunk: 4-byte big-endian payload length,
4-byte type, payload, 4-byte CRC. -/
def serChunk (c : PngChunk) : List Nat :=
  be32 c.payload.length ++ c.type ++ c.payload ++ c.crc

/-- Serialization of a chunk list followed by trailing bytes. -/
def serStream : List PngChunk → List Nat → List Nat
  | [], tail => tail
  | c :: cs, tail => serChunk c ++ serStream cs tail

/-- A text-bearing chunk (`tEXt` or `iTXt`) carrying either marker
keyword within the first `min(length, 1024)` bytes of its payload
(`length` is the header length field, which for a well-formed chunk
equals the payload length, so this is `payload.take 1024`). -/
def isMarkerChunk (c : PngChunk) : Bool :=
  (c.type == tEXtBytes || c.type == iTXtBytes) &&
    (hasSubstr promptBytes (c.payload.take 1024) ||
      hasSubstr workflowBytes (c.payload.take 1024))

/-! ## Query-engine sorting and endpoint pagination -/

/-- One entry of the image list built by `get_input_images_optimized`:
the fields its sort step reads (`x['name']`, `x['mtime']`). -/
structure GalleryImage where
  name : String
  mtime : Int
deriving DecidableEq

/-- Python string comparison `a <= b` on code points, restricted to
the byte values produced by `lowerStr`. -/
def lexLe : List Nat → List Nat → Bool
  | [], _ => true
  | _ :: _, [] => false
  | a :: ra, b :: rb =>
    if a < b then true else if a == b then lexLe ra rb else false

/-- Insert into a sorted list: before the first element `b` with
`le a b`. -/
def insertLe {α : Type} (le : α → α → Bool) (a : α) : List α → List α
  | [] => [a]
  | b :: l => if le a b then a :: b :: l else b :: insertLe le a l

/-- Stable comparison sort modelling Python `sorted` (Python's sort is
stable; this insertion sort places an element after all earlier
elements with an equal key, which matches). -/
def sortedBy {α : Type} (le : α → α → Bool) : List α → List α
  | [] => []
  | a :: l => insertLe le a (sortedBy le l)

/-- The sort step of `get_input_images_optimized`: key `"date"` sorts
by `x['mtime']` with `reverse=True`, key `"date_asc"` sorts by
`x['mtime']` ascending, and every other key falls into the `else`
branch, which sorts by `x['name'].lower()`. -/
def apply_sorting (sortKey : String) (l : List GalleryImage) :
    List GalleryImage :=
  if sortKey == "date" then
    sortedBy (fun a b => b.mtime ≤ a.mtime) l
  else if sortKey == "date_asc" then
    sortedBy (fun a b => a.mtime ≤ b.mtime) l
  else
    sortedBy (fun a b => lexLe (lowerStr a.name) (lowerStr b.name)) l

/-- `total_pages = max(1, (total_images + per_page - 1) // per_page)`
from `get_images_endpoint`. -/
def total_pages (total per_page : Nat) : Nat :=
  max 1 ((total + per_page - 1) / per_page)

/-- The slice `all_images[start_index:end_index]` from
`get_images_endpoint`, with `start_index = (page - 1) * per_page` and
`end_index = start_index + per_page`. -/
def paginate {α : Type} (l : List α) (page per_page : Nat) : List α :=
  (l.drop ((page - 1) * per_page)).take per_page

/-- Claim-side slice `entries[a:b]` (0-based, half-open), stated from
the spec's words for comparison with `paginate`. -/
def sliceClaim {α : Type} (l : List α) (a b : Nat) : List α :=
  (l.take b).drop a

/-! ## POSIX path model (`os.path.normpath`, `os.path.join`,
`str.startswith`, `os.path.basename`) -/

/-- `s.split('/')` on characters. -/
def splitSlashAux (cur : List Char) : List Char → List (List Char)
  | [] => [cur.reverse]
  | ch :: rest =>
    if ch == '/' then cur.reverse :: splitSlashAux [] rest
    else splitSlashAux (ch :: cur) rest

/-- `s.split('/')`. -/
def splitSlash (s : List Char) : List (List Char) := splitSlashAux [] s

/-- POSIX `os.path.normpath`, following `posixpath.normpath`: empty
path becomes `'.'`; one or, exactly, two leading slashes are
preserved; `''` and `'.'` components are dropped; a `'..'` component
pops the previous component unless there is none to pop (at an
absolute root it is dropped, at the start of a relative path it is
kept, and it never pops another `'..'`). -/
def normpathStr (s : String) : String :=
  if s.data.isEmpty then "."
  else
    let initialSlashes : Nat :=
      if s.data.take 1 == ['/'] then
        if s.data.take 2 == ['/', '/'] && !(s.data.take 3 == ['/', '/', '/']) then 2
        else 1
      else 0
    let comps := splitSlash s.data
    let newComps := comps.foldl
      (fun acc comp =>
        if comp == ([] : List Char) || comp == ['.'] then acc
        else if !(comp == ['.', '.']) || (initialSlashes == 0 && acc.isEmpty) ||
            (!acc.isEmpty && acc.getLast? == some ['.', '.']) then acc ++ [comp]
        else if !acc.isEmpty then acc.dropLast
        else acc)
      []
    let joined := List.intercalate ['/'] newComps
    let outChars := List.replicate initialSlashes '/' ++ joined
    if outChars.isEmpty then "." else String.mk outChars

/-- POSIX `os.path.join(a, b)` for two components. -/
def pyJoin (a b : String) : String :=
  if b.data.take 1 == ['/'] then b
  else if a.data.isEmpty || a.data.getLast? == some '/' then
    String.mk (a.data ++ b.data)
  else
    String.mk (a.data ++ '/' :: b.data)

/-- Python `s.startswith(p)`: plain string-prefix test. -/
def strStartsWith (s p : String) : Bool := p.data.isPrefixOf s.data

/-- POSIX `os.path.basename`: the part after the last `'/'`. -/
def basenameStr (s : String) : String :=
  String.mk ((splitSlash s.data).getLastD [])

/-- The path validation performed by the `delete_image` route (and by
`LocalImageGallery.load_image` / `VALIDATE_INPUTS`): build
`image_path = os.path.normpath(os.path.join(input_dir, image_name))`
and require `image_path.startswith(os.path.normpath(input_dir))`.
`True` means the request is allowed to proceed to
`os.path.exists(image_path)` and deletion. -/
def delete_image_path_check (input_dir image_name : String) : Bool :=
  strStartsWith (normpathStr (pyJoin input_dir image_name))
    (normpathStr input_dir)

/-- The spec's notion of a resolved path that does not escape the
resolved root: it is the root itself, or the root rendered with a
trailing separator is a path prefix of it. -/
def staysWithinRoot (root resolved : String) : Bool :=
  resolved == normpathStr root ||
    ((normpathStr root).data ++ ['/']).isPrefixOf resolved.data

/-! ## Source-folder configuration loader -/

/-- A configured source folder as `load_source_folders` returns it. -/
structure SrcFolder where
  path : String
  name : String
  is_default : Bool
deriving DecidableEq

/-- One entry of the `folders` list in the configuration JSON, read
through `f.get('path', '')`, `f.get('name', basename)`,
`f.get('is_default', False)`. -/
structure RawFolder where
  path : String
  name : Option String
  is_default : Bool
deriving DecidableEq

/-- Outcome of reading `custom_source_folders.json`: file absent;
unreadable, empty or malformed JSON (any exception while loading or
processing, handled by the `except` branch); or a parsed `folders`
list. -/
inductive FoldersConfig where
  | missing
  | malformed
  | parsed (folders : List RawFolder)
deriving DecidableEq

/-- The promotion loop of `load_source_folders`: find the first valid
folder whose normalized path equals the normalized input directory,
set its `is_default` flag, and move it to the front (`insert(0,
pop(i))`); `none` when no folder matches (`has_input` false). -/
def extractInput (inputNorm : String) :
    List SrcFolder → Option (SrcFolder × List SrcFolder)
  | [] => none
  | f :: rest =>
    if normpathStr f.path == inputNorm then
      some ({ f with is_default := true }, rest)
    else
      match extractInput inputNorm rest with
      | some (g, rest') => some (g, f :: rest')
      | none => none

/-- The `valid_folders` list built by `load_source_folders`: each
configured entry whose normalized path passes the filesystem test
`os.path.exists(path) and os.path.isdir(path)` (the predicate `isDir`),
with its name defaulting to the basename of the normalized path. -/
def validSourceFolders (isDir : String → Bool)
    (folders : List RawFolder) : List SrcFolder :=
  folders.filterMap (fun f =>
    let p := normpathStr f.path
    if isDir p then
      some (⟨p, f.name.getD (basenameStr p), f.is_default⟩ : SrcFolder)
    else none)

/-- `load_source_folders()` with the input directory
(`folder_paths.get_input_directory()`), the filesystem test, and the
configuration file read passed in explicitly.  An empty or unreadable
file raises inside the `try` block and is the `malformed` case. -/
def load_source_folders (inputDir : String) (isDir : String → Bool)
    (cfg : FoldersConfig) : List SrcFolder :=
  let defaultFolder : SrcFolder := ⟨inputDir, "input", true⟩
  match cfg with
  | .missing => [defaultFolder]
  | .malformed => [defaultFolder]
  | .parsed folders =>
    match extractInput (normpathStr inputDir) (validSourceFolders isDir folders) with
    | some (g, rest) => g :: rest
    | none => defaultFolder :: validSourceFolders isDir folders

/-! ## Thumbnail generator and cache -/

/-- The thumbnail cache directory constant. -/
def CACHE_DIR : String := "thumbnail_cache"

/-- The persisted thumbnail cache: the set of artifact paths present
on disk under `CACHE_DIR`. -/
structure ThumbFS where
  files : List String
deriving DecidableEq

/-- `get_thumbnail_path(image_path)`: stat the source for its mtime
(`0` on `OSError`), hash `f"{image_path}:{mtime}"`, and return
`CACHE_DIR/<hash>.webp`.  The digest function (`md5 ... hexdigest`) is
passed in as `hash`; it is a fixed function of its input string, which
is all the claims use. -/
def get_thumbnail_path (hash : String → String)
    (statMtime : String → Option Int) (image_path : String) : String :=
  let mtime : Int := match statMtime image_path with | some m => m | none => 0
  CACHE_DIR ++ "/" ++ hash (image_path ++ ":" ++ toString mtime) ++ ".webp"

/-- `generate_thumbnail(image_path)`: return the cached artifact path
if it already exists; otherwise run the load/resize/encode pipeline
(`encode`, `none` modelling any exception, which the handler turns
into a `None` return with no artifact written), persist the artifact,
and return its path.  Result: returned path (or `none` on failure),
updated thumbnail store, and whether an artifact was generated by this
call. -/
def generate_thumbnail (hash : String → String)
    (statMtime : String → Option Int) (encode : String → Option Unit)
    (fs : ThumbFS) (image_path : String) :
    Option String × ThumbFS × Bool :=
  let tp := get_thumbnail_path hash statMtime image_path
  if fs.files.contains tp then
    (some tp, fs, false)
  else
    match encode image_path with
    | some _ => (some tp, ⟨tp :: fs.files⟩, true)
    | none => (none, fs, false)

/-! ## Theorems -/

theorem lookup_assocSet {β : Type} (k : String) (v : β)
    (l : List (String × β)) : (assocSet k v l).lookup k = some v := by
  simp [assocSet, List.lookup]

/-- C8: `invalidate()` clears only the directory-listing partition and
leaves the metadata-status partition completely unchanged — every
metadata entry present before the call is present with the same value
and timestamp after it. -/
theorem c8_invalidate_frame (c : ImageCache) :
    c.invalidate.cache = [] ∧
    c.invalidate.metadataCache = c.metadataCache ∧
    ∀ k, c.invalidate.metadataCache.lookup k = c.metadataCache.lookup k :=
  ⟨rfl, rfl, fun _ => rfl⟩

/-- C1: a cached directory listing is returned whenever its entry is
present with age at most 30 seconds (independently of the current disk
state `scan1`); only on absence or expiry is the Directory Indexer
invoked and its fresh result stored with the current timestamp; and a
second lookup made while the entry left by a first lookup is still
within the 30-second TTL returns the first lookup's result even if the
disk state has changed to `scan2` in between. -/
theorem c1_directory_listing_cache (c : ImageCache) (input_dir : String)
    (t1 t2 : Int) (scan1 scan2 : String → DirListing) :
    (∀ e, c.cache.lookup (dirKey input_dir) = some e → t1 - e.time ≤ 30 →
      get_directory_listing c t1 scan1 input_dir = (e.data, c)) ∧
    (c.cache.lookup (dirKey input_dir) = none →
      get_directory_listing c t1 scan1 input_dir =
        (scan1 input_dir,
          { c with cache :=
              assocSet (dirKey input_dir) ⟨t1, scan1 input_dir⟩ c.cache })) ∧
    (∀ e, c.cache.lookup (dirKey input_dir) = some e → t1 - e.time > 30 →
      get_directory_listing c t1 scan1 input_dir =
        (scan1 input_dir,
          { c with cache :=
              assocSet (dirKey input_dir) ⟨t1, scan1 input_dir⟩ c.cache })) ∧
    (∀ e1,
      (get_directory_listing c t1 scan1 input_dir).2.cache.lookup
          (dirKey input_dir) = some e1 →
      t2 - e1.time ≤ 30 →
      (get_directory_listing (get_directory_listing c t1 scan1 input_dir).2
          t2 scan2 input_dir).1 =
        (get_directory_listing c t1 scan1 input_dir).1) := by
  refine ⟨?_, ?_, ?_, ?_⟩
  · intro e he hfresh
    have hx : isExpired t1 e.time DIR_TTL = false := by
      simp [isExpired, DIR_TTL]; omega
    simp [get_directory_listing, he, hx]
  · intro h
    simp [get_directory_listing, h]
  · intro e he hexp
    have hx : isExpired t1 e.time DIR_TTL = true := by
      simp [isExpired, DIR_TTL]; omega
    simp [get_directory_listing, he, hx]
  · intro e1 h1 hfresh
    have hx2 : isExpired t2 e1.time DIR_TTL = false := by
      simp [isExpired, DIR_TTL]; omega
    cases hc : c.cache.lookup (dirKey input_dir) with
    | some e =>
      cases hexp : isExpired t1 e.time DIR_TTL with
      | false =>
        simp [get_directory_listing, hc, hexp] at h1 ⊢
        obtain rfl : e = e1 := h1
        simp [hx2]
      | true =>
        simp [get_directory_listing, hc, hexp] at h1 ⊢
        rw [lookup_assocSet] at h1
        obtain rfl : (⟨t1, scan1 input_dir⟩ : DirEntry) = e1 := by injection h1
        rw [lookup_assocSet]
        simp [hx2]
    | none =>
      simp [get_directory_listing, hc] at h1 ⊢
      rw [lookup_assocSet] at h1
      obtain rfl : (⟨t1, scan1 input_dir⟩ : DirEntry) = e1 := by injection h1
      rw [lookup_assocSet]
      simp [hx2]

/-- Witness for C1: on an empty cache, a first lookup at time 0 scans
the disk; a second lookup at time 10 against a changed disk returns
the first result. -/
theorem c1_witness :
    (get_directory_listing
        (get_directory_listing ⟨[], []⟩ 0
          (fun _ => ⟨["a.png"], [], []⟩) "root").2
        10 (fun _ => ⟨["b.png"], [], []⟩) "root").1 =
      ⟨["a.png"], [], []⟩ := by
  have h := (c1_directory_listing_cache ⟨[], []⟩ "root" 0 10
      (fun _ => ⟨["a.png"], [], []⟩) (fun _ => ⟨["b.png"], [], []⟩)).2.2.2
      ⟨0, ⟨["a.png"], [], []⟩⟩ (by decide) (by decide)
  rw [h]
  decide

/-- C5 (amended): for a fixed `(path, mtime)` pair, the
metadata-presence query returns the cached boolean — independent of
the current file content — whenever a cache entry for that pair exists
with age at most 300 seconds, and it leaves the cache untouched; the
result can change without an mtime change once the 300-second TTL has
expired, since the value is then recomputed from the current content. -/
theorem c5_metadata_fixed_pair (c : ImageCache) (now : Int)
    (file : Option (List Nat)) (image_path : String) (mtime : Int)
    (e : MetaEntry)
    (hlook : c.metadataCache.lookup (metaKey image_path mtime) = some e)
    (hfresh : now - e.time ≤ 300)
    (hpng : endsWithPngLower image_path = true) :
    (has_comfyui_metadata_fast c now file image_path mtime).1 = e.data ∧
    (has_comfyui_metadata_fast c now file image_path mtime).2 = c := by
  have hx : isExpired now e.time META_TTL = false := by
    simp [isExpired, META_TTL]; omega
  have hmeta : get_metadata_status c now image_path mtime = some e.data := by
    simp [get_metadata_status, hlook, hx]
  constructor <;> simp [has_comfyui_metadata_fast, hpng, hmeta]

/-- Witness for C5 (amended): a live entry `(time 0, value true)`
queried at time 10 is returned as is, with file content present and
arbitrary. -/
theorem c5_witness :
    (has_comfyui_metadata_fast ⟨[], [("meta:a.png:5", ⟨0, true⟩)]⟩ 10
        (some [7]) "a.png" 5).1 = true := by
  have h := c5_metadata_fixed_pair ⟨[], [("meta:a.png:5", ⟨0, true⟩)]⟩ 10
      (some [7]) "a.png" 5 ⟨0, true⟩ (by decide) (by decide) (by decide)
  exact h.1

/-- C5 counterexample: with `(path, mtime)` held fixed at
`("a.png", 5)`, a query at time 0 against empty content stores and
returns `false`; a query at time 301 — past the 300-second metadata
TTL — against changed content (now a PNG whose `tEXt` chunk carries
`prompt`) recomputes and returns `true`.  So the query does not always
return the same boolean for a fixed pair, and mtime change is not the
only trigger of recomputation. -/
theorem c5_ttl_expiry_recomputes :
    (has_comfyui_metadata_fast ⟨[], []⟩ 0 (some []) "a.png" 5).1 = false ∧
    (has_comfyui_metadata_fast
        (has_comfyui_metadata_fast ⟨[], []⟩ 0 (some []) "a.png" 5).2
        301
        (some (pngSig ++ serStream [⟨tEXtBytes, promptBytes, [0, 0, 0, 0]⟩] []))
        "a.png" 5).1 = true := by
  constructor <;> decide

/-- C9: the thumbnail artifact path is the deterministic key derived
from the source path and its modification time, and once a call has
returned an artifact path, an immediately repeated call on the
unchanged file is a pure cache hit: it returns the same artifact path,
leaves the store unchanged, and generates nothing. -/
theorem c9_thumbnail_cache_hit (hash : String → String)
    (statMtime : String → Option Int) (encode : String → Option Unit)
    (fs : ThumbFS) (image_path : String) (tp : String) (fs1 : ThumbFS)
    (g1 : Bool)
    (h : generate_thumbnail hash statMtime encode fs image_path =
      (some tp, fs1, g1)) :
    tp = get_thumbnail_path hash statMtime image_path ∧
    generate_thumbnail hash statMtime encode fs1 image_path =
      (some tp, fs1, false) := by
  by_cases hc : get_thumbnail_path hash statMtime image_path ∈ fs.files
  · simp [generate_thumbnail, hc] at h
    obtain ⟨h1, h2, h3⟩ := h
    subst h1 h2
    simp [generate_thumbnail, hc]
  · cases he : encode image_path with
    | none => simp [generate_thumbnail, hc, he] at h
    | some u =>
      simp [generate_thumbnail, hc, he] at h
      obtain ⟨h1, h2, h3⟩ := h
      subst h1 h2
      simp [generate_thumbnail]

/-- Witness for C9: a miss generates the artifact; the repeated call
is a hit on the stored path. -/
theorem c9_witness :
    generate_thumbnail (fun _ => "h") (fun _ => some 7) (fun _ => some ())
        ⟨["thumbnail_cache/h.webp"]⟩ "img.png" =
      (some "thumbnail_cache/h.webp", ⟨["thumbnail_cache/h.webp"]⟩, false) := by
  have h := c9_thumbnail_cache_hit (fun _ => "h") (fun _ => some 7)
      (fun _ => some ()) ⟨[]⟩ "img.png" "thumbnail_cache/h.webp"
      ⟨["thumbnail_cache/h.webp"]⟩ true (by decide)
  exact h.2

/-- C2 (code bug): the `delete_image` validation accepts the relative
image name `../images_secret/x.png` under the root `/data/images`: the
joined path normalizes to `/data/images_secret/x.png`, which passes
the plain `startswith` string-prefix check even though it lies outside
the root, so the route proceeds to `os.path.exists` and deletion on a
path that escapes the resolved root instead of rejecting it with an
access-denied condition. -/
theorem c2_delete_traversal_not_rejected :
    delete_image_path_check "/data/images" "../images_secret/x.png" = true ∧
    normpathStr (pyJoin "/data/images" "../images_secret/x.png") =
      "/data/images_secret/x.png" ∧
    staysWithinRoot "/data/images"
      (normpathStr (pyJoin "/data/images" "../images_secret/x.png")) = false := by
  refine ⟨by decide, by decide, by decide⟩

/-- C6: pagination is a pure slice — page `p` (1-based) returns
`entries[(p-1)*page_size : p*page_size]` — and `total_pages` is the
least page count `k ≥ 1` with `total ≤ k * page_size`, i.e.
`ceil(total / page_size)` with a floor of 1; in particular for
`page_size = 50` and 125 entries there are 3 pages, page 1 is
`entries[0:50]` and page 3 is `entries[100:125]` (25 entries). -/
theorem c6_pagination_slice (l : List Nat) (page per_page : Nat)
    (hpage : 1 ≤ page) (hpp : 0 < per_page) :
    paginate l page per_page =
      sliceClaim l ((page - 1) * per_page) (page * per_page) ∧
    1 ≤ total_pages l.length per_page ∧
    l.length ≤ total_pages l.length per_page * per_page ∧
    (∀ k, 1 ≤ k → l.length ≤ k * per_page →
      total_pages l.length per_page ≤ k) ∧
    total_pages 125 50 = 3 ∧
    paginate (List.range 125) 1 50 = List.range 50 ∧
    paginate (List.range 125) 3 50 = (List.range 25).map (fun i => 100 + i) ∧
    (paginate (List.range 125) 3 50).length = 25 := by
  obtain ⟨q, rfl⟩ : ∃ q, page = q + 1 := ⟨page - 1, by omega⟩
  refine ⟨?_, ?_, ?_, ?_, by decide, by decide, by decide, by decide⟩
  · show (l.drop ((q + 1 - 1) * per_page)).take per_page =
        (l.take ((q + 1) * per_page)).drop ((q + 1 - 1) * per_page)
    simp only [Nat.add_sub_cancel]
    rw [List.drop_take]
    congr 1
    have h1 : (q + 1) * per_page = q * per_page + per_page := by ring
    omega
  · exact Nat.le_max_left 1 _
  · unfold total_pages
    rcases Nat.eq_zero_or_pos l.length with h0 | h0
    · simp [h0]
    · have hq2 := Nat.div_add_mod (l.length + per_page - 1) per_page
      have hmod := Nat.mod_lt (l.length + per_page - 1) hpp
      have hle : 1 ≤ (l.length + per_page - 1) / per_page := by
        rw [Nat.le_div_iff_mul_le hpp]
        omega
      rw [Nat.max_eq_right hle, Nat.mul_comm]
      omega
  · intro k hk hkn
    have hlt : (l.length + per_page - 1) / per_page < k + 1 := by
      rw [Nat.div_lt_iff_lt_mul hpp]
      have h1 : (k + 1) * per_page = k * per_page + per_page := by ring
      omega
    unfold total_pages
    omega

/-- Witness for C6 at `page_size = 50`, 125 entries, page 3. -/
theorem c6_witness :
    paginate (List.range 125) 3 50 = sliceClaim (List.range 125) 100 150 ∧
    total_pages 125 50 = 3 := by
  have h := c6_pagination_slice (List.range 125) 3 50 (by decide) (by decide)
  exact ⟨h.1, h.2.2.2.2.1⟩

theorem mem_insertLe {α : Type} (le : α → α → Bool) (a x : α) (l : List α) :
    x ∈ insertLe le a l ↔ x = a ∨ x ∈ l := by
  induction l with
  | nil => simp [insertLe]
  | cons b t ih =>
    cases h : le a b with
    | true => simp [insertLe, h]
    | false => simp [insertLe, h, ih]; tauto

theorem perm_insertLe {α : Type} (le : α → α → Bool) (a : α) (l : List α) :
    List.Perm (insertLe le a l) (a :: l) := by
  induction l with
  | nil => simp [insertLe]
  | cons b t ih =>
    cases h : le a b with
    | true => simp [insertLe, h]
    | false =>
      rw [show insertLe le a (b :: t) = b :: insertLe le a t from by
        simp [insertLe, h]]
      exact (List.Perm.cons b ih).trans (List.Perm.swap a b t)

theorem pairwise_insertLe {α : Type} (le : α → α → Bool)
    (htot : ∀ a b, le a b = true ∨ le b a = true)
    (htrans : ∀ a b c, le a b = true → le b c = true → le a c = true)
    (a : α) (l : List α) (h : l.Pairwise (fun x y => le x y = true)) :
    (insertLe le a l).Pairwise (fun x y => le x y = true) := by
  induction l with
  | nil => simp [insertLe]
  | cons b t ih =>
    rcases List.pairwise_cons.mp h with ⟨hb, ht⟩
    cases hab : le a b with
    | true =>
      rw [show insertLe le a (b :: t) = a :: b :: t from by simp [insertLe, hab]]
      refine List.pairwise_cons.mpr ⟨?_, h⟩
      intro x hx
      rcases List.mem_cons.mp hx with rfl | hx'
      · exact hab
      · exact htrans a b x hab (hb x hx')
    | false =>
      rw [show insertLe le a (b :: t) = b :: insertLe le a t from by
        simp [insertLe, hab]]
      refine List.pairwise_cons.mpr ⟨?_, ih ht⟩
      intro x hx
      rcases (mem_insertLe le a x t).mp hx with rfl | hx'
      · rcases htot x b with hxb | hbx
        · rw [hab] at hxb; exact absurd hxb (by simp)
        · exact hbx
      · exact hb x hx'

theorem perm_sortedBy {α : Type} (le : α → α → Bool) (l : List α) :
    List.Perm (sortedBy le l) l := by
  induction l with
  | nil => simp [sortedBy]
  | cons a t ih => exact (perm_insertLe le a (sortedBy le t)).trans (List.Perm.cons a ih)

theorem pairwise_sortedBy {α : Type} (le : α → α → Bool)
    (htot : ∀ a b, le a b = true ∨ le b a = true)
    (htrans : ∀ a b c, le a b = true → le b c = true → le a c = true)
    (l : List α) :
    (sortedBy le l).Pairwise (fun x y => le x y = true) := by
  induction l with
  | nil => simp [sortedBy]
  | cons a t ih => exact pairwise_insertLe le htot htrans a _ ih

theorem lexLe_total (a b : List Nat) : lexLe a b = true ∨ lexLe b a = true := by
  induction a generalizing b with
  | nil => left; rfl
  | cons x ra ih =>
    cases b with
    | nil => right; rfl
    | cons y rb =>
      by_cases hxy : x < y
      · left; simp [lexLe, hxy]
      · by_cases heq : x = y
        · subst heq
          rcases ih rb with h | h
          · left; simp [lexLe, h]
          · right; simp [lexLe, h]
        · right
          have hyx : y < x := by omega
          simp [lexLe, hyx]

theorem lexLe_trans (a b c : List Nat) (h1 : lexLe a b = true)
    (h2 : lexLe b c = true) : lexLe a c = true := by
  induction a generalizing b c with
  | nil => rfl
  | cons x ra ih =>
    cases b with
    | nil => simp [lexLe] at h1
    | cons y rb =>
      cases c with
      | nil => simp [lexLe] at h2
      | cons z rc =>
        simp only [lexLe] at h1 h2 ⊢
        by_cases hxy : x < y
        · by_cases hyz : y < z
          · simp [show x < z by omega]
          · by_cases hyz2 : y = z
            · subst hyz2; simp [hxy]
            · simp [hyz, hyz2] at h2
        · by_cases hxy2 : x = y
          · subst hxy2
            simp [lt_self_iff_false] at h1
            by_cases hyz : x < z
            · simp [hyz]
            · by_cases hyz2 : x = z
              · subst hyz2
                simp [lt_self_iff_false] at h2
                simp [lt_self_iff_false, ih rb rc h1 h2]
              · simp [hyz, hyz2] at h2
          · simp [hxy, hxy2] at h1

/-- C7 counterexample: the sort key `date_desc` is not recognized by
the code (its descending-date key is the literal `date`), so
`date_desc` falls into the name-order `else` branch: on entries
`a` (mtime 1) and `b` (mtime 2) it returns name order `[a, b]`, which
is not modification-time descending. -/
theorem c7_date_desc_counterexample :
    apply_sorting "date_desc" [⟨"a", 1⟩, ⟨"b", 2⟩] = [⟨"a", 1⟩, ⟨"b", 2⟩] ∧
    ¬ (apply_sorting "date_desc" [⟨"a", 1⟩, ⟨"b", 2⟩]).Pairwise
        (fun x y => y.mtime ≤ x.mtime) := by
  have heq : apply_sorting "date_desc" [⟨"a", 1⟩, ⟨"b", 2⟩] =
      [⟨"a", 1⟩, ⟨"b", 2⟩] := by decide
  refine ⟨heq, ?_⟩
  rw [heq]
  intro h
  have h2 := (List.pairwise_cons.mp h).1 ⟨"b", 2⟩ (by simp)
  simp at h2

/-- C7 (amended): sort key `name` yields case-insensitive
lexicographic ascending order; sort key `date` (the code's literal for
descending date — the spec's `date_desc` is unrecognized and falls
back to name order) yields modification-time descending order; sort
key `date_asc` yields modification-time ascending order.  Each result
is a permutation of the input. -/
theorem c7_sort_orders (l : List GalleryImage) :
    ((apply_sorting "name" l).Pairwise
        (fun a b => lexLe (lowerStr a.name) (lowerStr b.name) = true) ∧
      List.Perm (apply_sorting "name" l) l) ∧
    ((apply_sorting "date" l).Pairwise (fun a b => b.mtime ≤ a.mtime) ∧
      List.Perm (apply_sorting "date" l) l) ∧
    ((apply_sorting "date_asc" l).Pairwise (fun a b => a.mtime ≤ b.mtime) ∧
      List.Perm (apply_sorting "date_asc" l) l) := by
  have hname : apply_sorting "name" l =
      sortedBy (fun a b => lexLe (lowerStr a.name) (lowerStr b.name)) l := rfl
  have hdate : apply_sorting "date" l =
      sortedBy (fun a b : GalleryImage => decide (b.mtime ≤ a.mtime)) l := rfl
  have hasc : apply_sorting "date_asc" l =
      sortedBy (fun a b : GalleryImage => decide (a.mtime ≤ b.mtime)) l := rfl
  refine ⟨⟨?_, ?_⟩, ⟨?_, ?_⟩, ⟨?_, ?_⟩⟩
  · rw [hname]
    exact pairwise_sortedBy
      (fun a b : GalleryImage => lexLe (lowerStr a.name) (lowerStr b.name))
      (fun a b => lexLe_total _ _)
      (fun a b c h1 h2 => lexLe_trans _ _ _ h1 h2) l
  · rw [hname]; exact perm_sortedBy _ l
  · rw [hdate]
    have hp := pairwise_sortedBy
      (fun a b : GalleryImage => decide (b.mtime ≤ a.mtime))
      (fun a b => by rcases Int.le_total b.mtime a.mtime with h | h <;> simp [h])
      (fun a b c h1 h2 => by simp at h1 h2 ⊢; omega) l
    exact hp.imp (fun h => of_decide_eq_true h)
  · rw [hdate]; exact perm_sortedBy _ l
  · rw [hasc]
    have hp := pairwise_sortedBy
      (fun a b : GalleryImage => decide (a.mtime ≤ b.mtime))
      (fun a b => by rcases Int.le_total a.mtime b.mtime with h | h <;> simp [h])
      (fun a b c h1 h2 => by simp at h1 h2 ⊢; omega) l
    exact hp.imp (fun h => of_decide_eq_true h)
  · rw [hasc]; exact perm_sortedBy _ l

theorem parseBe32_be32 (n : Nat) (h : n < 4294967296) :
    parseBe32 (be32 n) = n := by
  simp [parseBe32, be32, List.foldl_cons, List.foldl_nil]
  omega

theorem serStream_length_ge (chunks : List PngChunk) (tail : List Nat)
    (hwf : ∀ c ∈ chunks, wfChunk c) :
    12 * chunks.length ≤ (serStream chunks tail).length := by
  induction chunks with
  | nil => simp [serStream]
  | cons c cs ih =>
    obtain ⟨ht4, hc4, hplt⟩ := hwf c (List.mem_cons_self c cs)
    have ih2 := ih (fun x hx => hwf x (List.mem_cons_of_mem c hx))
    simp [serStream, serChunk, be32, ht4, hc4]
    omega

theorem scanLoop_serStream (chunks : List PngChunk) (tail : List Nat)
    (fuel : Nat)
    (hwf : ∀ c ∈ chunks, wfChunk c) (htail : tail.length < 8)
    (hfuel : chunks.length < fuel) :
    scanLoop fuel (serStream chunks tail) =
      (chunks.takeWhile (fun c => !(c.type == iendBytes))).any isMarkerChunk := by
  induction chunks generalizing fuel with
  | nil =>
    obtain ⟨m, rfl⟩ : ∃ m, fuel = m + 1 := ⟨fuel - 1, by omega⟩
    have hshort : ((tail.take 8).length < 8) := by
      simp [List.length_take]; omega
    simp [serStream, scanLoop, hshort]
    intro h
    omega
  | cons c cs ih =>
    obtain ⟨m, rfl⟩ : ∃ m, fuel = m + 1 := ⟨fuel - 1, by omega⟩
    obtain ⟨ht4, hc4, hplt⟩ := hwf c (List.mem_cons_self c cs)
    have hwf2 : ∀ x ∈ cs, wfChunk x := fun x hx => hwf x (List.mem_cons_of_mem c hx)
    have hfuel2 : cs.length < m := by
      simp at hfuel; omega
    have hbytes : serStream (c :: cs) tail =
        (be32 c.payload.length ++ c.type) ++
          (c.payload ++ (c.crc ++ serStream cs tail)) := by
      simp [serStream, serChunk]
    have hA : (be32 c.payload.length ++ c.type).length = 8 := by
      simp [be32, ht4]
    have htake8 : (serStream (c :: cs) tail).take 8 =
        be32 c.payload.length ++ c.type := by
      rw [hbytes, List.take_left' hA]
    have hlen8 : ((serStream (c :: cs) tail).take 8).length = 8 := by
      rw [htake8, hA]
    have htake4 : (serStream (c :: cs) tail).take 4 = be32 c.payload.length := by
      rw [hbytes, List.append_assoc,
        List.take_append_of_le_length (by simp [be32]),
        List.take_of_length_le (by simp [be32])]
    have hdrop4 : (serStream (c :: cs) tail).drop 4 =
        c.type ++ (c.payload ++ (c.crc ++ serStream cs tail)) := by
      rw [hbytes, List.append_assoc, List.drop_left' (by simp [be32])]
    have hty : ((serStream (c :: cs) tail).drop 4).take 4 = c.type := by
      rw [hdrop4, List.take_left' ht4]
    have hdrop8 : (serStream (c :: cs) tail).drop 8 =
        c.payload ++ (c.crc ++ serStream cs tail) := by
      rw [hbytes, List.drop_left' hA]
    have hparse : parseBe32 ((serStream (c :: cs) tail).take 4) =
        c.payload.length := by
      rw [htake4, parseBe32_be32 _ hplt]
    have hmintake : c.payload.take (min c.payload.length 1024) =
        c.payload.take 1024 := by
      rcases Nat.le_total c.payload.length 1024 with h | h
      · rw [Nat.min_eq_left h, List.take_length, List.take_of_length_le h]
      · rw [Nat.min_eq_right h]
    have hchunk : ((serStream (c :: cs) tail).drop 8).take
        (min c.payload.length 1024) = c.payload.take 1024 := by
      rw [hdrop8, List.take_append_of_le_length (Nat.min_le_left _ _), hmintake]
    have hdropfull : (serStream (c :: cs) tail).drop
        (8 + c.payload.length + 4) = serStream cs tail := by
      have hbytes2 : serStream (c :: cs) tail =
          (be32 c.payload.length ++ c.type ++ c.payload ++ c.crc) ++
            serStream cs tail := by
        simp [serStream, serChunk]
      have hlenC : (be32 c.payload.length ++ c.type ++ c.payload ++
          c.crc).length = 8 + c.payload.length + 4 := by
        simp [be32, ht4, hc4]
        omega
      rw [hbytes2, List.drop_left' hlenC]
    simp only [scanLoop, hlen8, hparse, hty, hchunk, hdropfull]
    rw [if_neg (by omega : ¬ (8:Nat) < 8)]
    cases htxt : (c.type == tEXtBytes || c.type == iTXtBytes) with
    | true =>
      have htxt2 : c.type = tEXtBytes ∨ c.type = iTXtBytes := by
        simpa using htxt
      have hq : (!(c.type == iendBytes)) = true := by
        rcases htxt2 with h | h
        · rw [h]; decide
        · rw [h]; decide
      cases hmark : (hasSubstr promptBytes (c.payload.take 1024) ||
          hasSubstr workflowBytes (c.payload.take 1024)) with
      | true =>
        have hm : isMarkerChunk c = true := by
          unfold isMarkerChunk; rw [htxt, hmark]; decide
        simp [List.takeWhile_cons, hq, hm]
      | false =>
        have hm : isMarkerChunk c = false := by
          unfold isMarkerChunk; rw [htxt, hmark]; decide
        have hih := ih m hwf2 hfuel2
        simp [List.takeWhile_cons, hq, hm, hih]
    | false =>
      cases hiend : (c.type == iendBytes) with
      | true =>
        simp [List.takeWhile_cons, hiend]
      | false =>
        have hm : isMarkerChunk c = false := by
          unfold isMarkerChunk; rw [htxt]; rfl
        have hih := ih m hwf2 hfuel2
        simp [List.takeWhile_cons, hiend, hm, hih]

theorem scanBytes_serStream (chunks : List PngChunk) (tail : List Nat)
    (hwf : ∀ c ∈ chunks, wfChunk c) (htail : tail.length < 8) :
    scanBytes (pngSig ++ serStream chunks tail) =
      (chunks.takeWhile (fun c => !(c.type == iendBytes))).any isMarkerChunk := by
  have hsig : (pngSig : List Nat).length = 8 := rfl
  have htk33 : ((pngSig ++ serStream chunks tail).take 33).take 8 = pngSig := by
    rw [List.take_take, show min 8 33 = 8 from rfl, List.take_left' hsig]
  have hlen33 : ¬ (((pngSig ++ serStream chunks tail).take 33).length < 8) := by
    simp [List.length_take, List.length_append, pngSig]
  have hdrop : (pngSig ++ serStream chunks tail).drop 8 = serStream chunks tail :=
    List.drop_left' hsig
  unfold scanBytes
  rw [htk33]
  simp only [beq_self_eq_true, Bool.not_true, Bool.or_false]
  rw [if_neg (by simpa using hlen33)]
  rw [hdrop]
  refine scanLoop_serStream chunks tail _ hwf htail ?_
  have hge := serStream_length_ge chunks tail hwf
  have hlen : (pngSig ++ serStream chunks tail).length =
      8 + (serStream chunks tail).length := by
    simp [pngSig]
    omega
  omega

/-- C3: the scanner is a total boolean function of the cache state and
file content (the model returns a value on every input, mirroring the
all-catching `except` clause): an absent or wrong 8-byte PNG signature
yields `false`; a read failure (`file = none`, the exception path)
yields `false` on the scan path; and a stream that ends in a truncated
chunk header (fewer than 8 remaining bytes) with no marker hit before
it ends the scan as `false`. -/
theorem c3_scanner_never_raises (c : ImageCache) (now : Int)
    (image_path : String) (mtime : Int) (bytes : List Nat)
    (chunks : List PngChunk) (tail : List Nat) :
    (get_metadata_status c now image_path mtime = none →
      (has_comfyui_metadata_fast c now none image_path mtime).1 = false) ∧
    (bytes.take 8 ≠ pngSig → scanBytes bytes = false) ∧
    ((∀ ch ∈ chunks, wfChunk ch) →
      (∀ ch ∈ chunks, isMarkerChunk ch = false) →
      tail.length < 8 →
      scanBytes (pngSig ++ serStream chunks tail) = false) := by
  refine ⟨?_, ?_, ?_⟩
  · intro h
    cases hp : endsWithPngLower image_path with
    | false => simp [has_comfyui_metadata_fast, hp]
    | true => simp [has_comfyui_metadata_fast, hp, h]
  · intro hne
    have h8 : ((bytes.take 33).take 8 == pngSig) = false := by
      rw [List.take_take, show min 8 33 = 8 from rfl]
      exact beq_eq_false_iff_ne.mpr hne
    simp [scanBytes, h8]
  · intro hwf hnomark htail
    rw [scanBytes_serStream chunks tail hwf htail]
    refine List.any_eq_false.mpr ?_
    intro x hx
    have hxc : x ∈ chunks :=
      (List.takeWhile_prefix _).sublist.subset hx
    simp [hnomark x hxc]

/-- Witness for C3: an empty cache with a failing read yields `false`;
bytes without the signature yield `false`; a well-formed marker-free
stream ending in a 1-byte truncated header yields `false`. -/
theorem c3_witness :
    (has_comfyui_metadata_fast ⟨[], []⟩ 0 none "x.png" 7).1 = false ∧
    scanBytes [1, 2, 3] = false ∧
    scanBytes (pngSig ++ serStream [⟨iTXtBytes, [0], [0, 0, 0, 0]⟩] [9]) = false := by
  have h := c3_scanner_never_raises ⟨[], []⟩ 0 "x.png" 7 [1, 2, 3]
      [⟨iTXtBytes, [0], [0, 0, 0, 0]⟩] [9]
  exact ⟨h.1 rfl, h.2.1 (by decide), h.2.2 (by decide) (by decide) (by decide)⟩

theorem any_takeWhile_iff {α : Type} (q f : α → Bool) (l : List α) :
    (l.takeWhile q).any f = true ↔
      ∃ l1 x l2, l = l1 ++ x :: l2 ∧ (∀ y ∈ l1, q y = true) ∧
        q x = true ∧ f x = true := by
  induction l with
  | nil => simp
  | cons a t ih =>
    cases hq : q a with
    | false =>
      rw [List.takeWhile_cons, if_neg (by simp [hq])]
      refine iff_of_false (by simp) ?_
      rintro ⟨l1, x, l2, hdec, hall, hqx, hfx⟩
      cases l1 with
      | nil =>
        obtain ⟨rfl, rfl⟩ : a = x ∧ t = l2 := by
          injection hdec with h1 h2; exact ⟨h1, h2⟩
        rw [hq] at hqx
        exact absurd hqx (by simp)
      | cons b l1t =>
        obtain ⟨rfl, hdec2⟩ : a = b ∧ t = l1t ++ x :: l2 := by
          injection hdec with h1 h2; exact ⟨h1, h2⟩
        have := hall a (List.mem_cons_self a l1t)
        rw [hq] at this
        exact absurd this (by simp)
    | true =>
      rw [List.takeWhile_cons, if_pos (by simp [hq]), List.any_cons]
      cases hf : f a with
      | true =>
        refine iff_of_true (by simp) ?_
        exact ⟨[], a, t, rfl, by simp, hq, hf⟩
      | false =>
        rw [Bool.false_or, ih]
        constructor
        · rintro ⟨l1, x, l2, rfl, hall, hqx, hfx⟩
          refine ⟨a :: l1, x, l2, rfl, ?_, hqx, hfx⟩
          intro y hy
          rcases List.mem_cons.mp hy with rfl | hy2
          · exact hq
          · exact hall y hy2
        · rintro ⟨l1, x, l2, hdec, hall, hqx, hfx⟩
          cases l1 with
          | nil =>
            obtain ⟨rfl, rfl⟩ : a = x ∧ t = l2 := by
              injection hdec with h1 h2; exact ⟨h1, h2⟩
            rw [hf] at hfx
            exact absurd hfx (by simp)
          | cons b l1t =>
            obtain ⟨rfl, hdec2⟩ : a = b ∧ t = l1t ++ x :: l2 := by
              injection hdec with h1 h2; exact ⟨h1, h2⟩
            exact ⟨l1t, x, l2, hdec2,
              fun y hy => hall y (List.mem_cons_of_mem _ hy), hqx, hfx⟩

/-- C4: on a valid signature followed by a well-formed chunk stream,
the scanner returns `true` exactly when some `tEXt` or `iTXt` chunk
occurring before any `IEND` chunk carries either marker keyword within
the first `min(length, 1024)` bytes of its payload (for a well-formed
chunk the header length field equals the payload length, so this is
the first 1024 payload bytes, as `isMarkerChunk` states); it stops at
the first hit, stops with `false` at `IEND`, and skips every other
chunk by its `length + 4` trailing bytes. -/
theorem c4_chunk_walk (chunks : List PngChunk)
    (hwf : ∀ ch ∈ chunks, wfChunk ch) :
    scanBytes (pngSig ++ serStream chunks []) = true ↔
      ∃ pre ch post, chunks = pre ++ ch :: post ∧
        (∀ p ∈ pre, ¬ p.type = iendBytes) ∧ isMarkerChunk ch = true := by
  rw [scanBytes_serStream chunks [] hwf (by simp), any_takeWhile_iff]
  constructor
  · rintro ⟨l1, x, l2, rfl, hall, hqx, hfx⟩
    exact ⟨l1, x, l2, rfl, fun p hp => by simpa using hall p hp, hfx⟩
  · rintro ⟨pre, ch, post, rfl, hpre, hm⟩
    refine ⟨pre, ch, post, rfl, fun y hy => by simpa using hpre y hy, ?_, hm⟩
    have hty : ch.type = tEXtBytes ∨ ch.type = iTXtBytes := by
      have hm2 := hm
      unfold isMarkerChunk at hm2
      have := (Bool.and_eq_true _ _).mp hm2
      simpa using this.1
    rcases hty with h | h <;> rw [h] <;> decide

/-- Witness for C4: a single `tEXt` chunk whose payload is the
`workflow` marker makes the scanner return `true`. -/
theorem c4_witness :
    scanBytes (pngSig ++
      serStream [⟨tEXtBytes, workflowBytes, [1, 2, 3, 4]⟩] []) = true := by
  refine (c4_chunk_walk [⟨tEXtBytes, workflowBytes, [1, 2, 3, 4]⟩]
      (by decide)).mpr ?_
  exact ⟨[], ⟨tEXtBytes, workflowBytes, [1, 2, 3, 4]⟩, [], rfl, by simp, by decide⟩

theorem mem_validSourceFolders (isDir : String → Bool)
    (folders : List RawFolder) (x : SrcFolder)
    (hx : x ∈ validSourceFolders isDir folders) : isDir x.path = true := by
  obtain ⟨a, ha, hax⟩ := List.mem_filterMap.mp hx
  cases hd : isDir (normpathStr a.path) with
  | false => simp [validSourceFolders, hd] at hax
  | true =>
    simp [validSourceFolders, hd] at hax
    subst hax
    exact hd

theorem extractInput_some (inputNorm : String) :
    ∀ (l : List SrcFolder) (g : SrcFolder) (rest : List SrcFolder),
    extractInput inputNorm l = some (g, rest) →
      normpathStr g.path = inputNorm ∧ g.is_default = true ∧
      (∃ f ∈ l, g = { f with is_default := true }) ∧ ∀ x ∈ rest, x ∈ l := by
  intro l
  induction l with
  | nil => intro g rest h; simp [extractInput] at h
  | cons f t ih =>
    intro g rest h
    cases hf : (normpathStr f.path == inputNorm) with
    | true =>
      simp only [extractInput, hf, if_true] at h
      simp at h
      obtain ⟨h1, h2⟩ := h
      subst h1 h2
      refine ⟨eq_of_beq hf, rfl,
        ⟨f, List.mem_cons_self f t, rfl⟩,
        fun x hx => List.mem_cons_of_mem f hx⟩
    | false =>
      cases hrec : extractInput inputNorm t with
      | none => simp [extractInput, hf, hrec] at h
      | some pr =>
        obtain ⟨g2, rest2⟩ := pr
        simp only [extractInput, hf, hrec] at h
        simp at h
        obtain ⟨h1, h2⟩ := h
        subst h1 h2
        obtain ⟨h1, h2, ⟨f2, hf2, hgf2⟩, hsub⟩ := ih g2 rest2 hrec
        refine ⟨h1, h2, ⟨f2, List.mem_cons_of_mem f hf2, hgf2⟩, ?_⟩
        intro x hx
        rcases List.mem_cons.mp hx with rfl | hx2
        · exact List.mem_cons_self _ _
        · exact List.mem_cons_of_mem f (hsub x hx2)

/-- C10: `load_source_folders` always returns a non-empty list whose
first element is the default input directory (its normalized path
equals the normalized input directory) marked `is_default`, whether
the configuration file is missing, empty or malformed (both handled by
the `except` branch), or parsed — with or without the input directory
among its entries; and every element of the result either is the input
directory or passed the exists-and-is-directory filter, so configured
paths that fail it are filtered out. -/
theorem c10_source_folders_default_first (inputDir : String)
    (isDir : String → Bool) (cfg : FoldersConfig) :
    (∃ h t, load_source_folders inputDir isDir cfg = h :: t ∧
      normpathStr h.path = normpathStr inputDir ∧ h.is_default = true) ∧
    (load_source_folders inputDir isDir cfg).all
      (fun e => (normpathStr e.path == normpathStr inputDir) || isDir e.path)
      = true := by
  cases cfg with
  | missing =>
    refine ⟨⟨⟨inputDir, "input", true⟩, [], rfl, rfl, rfl⟩, ?_⟩
    simp [load_source_folders]
  | malformed =>
    refine ⟨⟨⟨inputDir, "input", true⟩, [], rfl, rfl, rfl⟩, ?_⟩
    simp [load_source_folders]
  | parsed folders =>
    cases hext : extractInput (normpathStr inputDir)
        (validSourceFolders isDir folders) with
    | none =>
      have hres : load_source_folders inputDir isDir (.parsed folders) =
          (⟨inputDir, "input", true⟩ : SrcFolder) ::
            validSourceFolders isDir folders := by
        simp [load_source_folders, hext]
      refine ⟨⟨⟨inputDir, "input", true⟩, validSourceFolders isDir folders,
        hres, rfl, rfl⟩, ?_⟩
      rw [hres]
      refine List.all_eq_true.mpr ?_
      intro x hx
      rcases List.mem_cons.mp hx with rfl | hx2
      · simp
      · simp [mem_validSourceFolders isDir folders x hx2]
    | some pr =>
      obtain ⟨g, rest⟩ := pr
      obtain ⟨h1, h2, ⟨f2, hf2, hgf2⟩, hsub⟩ :=
        extractInput_some (normpathStr inputDir) _ g rest hext
      have hres : load_source_folders inputDir isDir (.parsed folders) =
          g :: rest := by
        simp [load_source_folders, hext]
      refine ⟨⟨g, rest, hres, h1, h2⟩, ?_⟩
      rw [hres]
      refine List.all_eq_true.mpr ?_
      intro x hx
      rcases List.mem_cons.mp hx with rfl | hx2
      · simp [h1]
      · simp [mem_validSourceFolders isDir folders x (hsub x hx2)]
